import Mathlib

/-!
Verification of the core of `src/app.py` (Inverter Loading Ratio dashboard).

The file embeds the greedy allocator `distribute_str_qty_greedy`
(src/app.py lines 82-98) and the metrics computation of the results loop
(lines 228-236, 243-246) as executable Lean definitions, and proves the
spec's claims about them.

Modelling conventions:
* Python ints are `Int`; the float parameters of the metrics loop are `ℚ`
  (the formulas involved are exact in the values the claims mention).
* A Python call that can raise (`min` of an empty sequence) is embedded as
  an `Option`-valued function; `none` models the raised exception.
* pandas `Series.std()` (default `ddof = 1`) returns NaN when `n - 1 <= 0`;
  `none` models NaN.  The square of the standard deviation is modelled so
  that the computation stays inside `ℚ`; the divisor and the NaN edge case
  are unaffected by the final square root.
-/

/-- Python `min(sums)` for a nonempty list scans left to right with binary
`min`; `min` of an empty sequence raises `ValueError`, modelled by `none`. -/
def pyMin : List Int → Option Int
  | [] => none
  | a :: rest => some (List.foldl min a rest)

/-- Python `sums.index(v)`: index of the first occurrence of `v`.  In the
program it is only called with `v = min(sums)`, which is always a member. -/
def pyIndex (v : Int) : List Int → Nat
  | [] => 0
  | a :: rest => if a = v then 0 else pyIndex v rest + 1

/-- Python `sorted(str_qty, reverse=True)`: the input sorted descending. -/
def sortDesc (l : List Int) : List Int :=
  List.insertionSort (fun a b => b ≤ a) l

/-- The `for number in str_qty_sorted` loop of `distribute_str_qty_greedy`
(src/app.py lines 93-96): each value goes to the slot holding the current
minimum sum (`idx = sums.index(min(sums))`), is appended to that slot's
line, and added to that slot's sum.  `none` models the `ValueError` that
`min(sums)` raises when `sums` is empty (`num_inverters = 0`). -/
def greedyLoop : List Int → List (List Int) → List Int →
    Option (List (List Int) × List Int)
  | [], lines, sums => some (lines, sums)
  | n :: rest, lines, sums =>
    match pyMin sums with
    | none => none
    | some m =>
      let idx := pyIndex m sums
      greedyLoop rest (lines.set idx (lines.getD idx [] ++ [n]))
        (sums.set idx (sums.getD idx 0 + n))

/-- The function `distribute_str_qty_greedy` (src/app.py lines 82-98): sort the
quantities descending, start from `num_inverters` empty lines with sums 0,
and run the greedy loop. -/
def distribute_str_qty_greedy (str_qty : List Int) (num_inverters : Nat) :
    Option (List (List Int) × List Int) :=
  greedyLoop (sortDesc str_qty) (List.replicate num_inverters [])
    (List.replicate num_inverters 0)

/-- Per-inverter `dc_power_kw = total_strings * str_moduleqty * (pot_module / 1000.0)`
(src/app.py line 229). -/
def dc_power_kw (total_strings : Int) (str_moduleqty : Int) (pot_module : ℚ) : ℚ :=
  (total_strings : ℚ) * (str_moduleqty : ℚ) * (pot_module / 1000)

/-- Per-inverter `ilr = dc_power_kw / power_inverter if power_inverter > 0 else 0`
(src/app.py line 230). -/
def ilr (dc : ℚ) (power_inverter : ℚ) : ℚ :=
  if power_inverter > 0 then dc / power_inverter else 0

/-- Square of `df_summary["ILR"].std()` (src/app.py line 246).  pandas
`Series.std` uses `ddof = 1` by default: the divisor is `n - 1` and the
result is NaN (here `none`) when `n - 1 <= 0`, i.e. when `n ≤ 1`. -/
def ilr_std_sq (xs : List ℚ) : Option ℚ :=
  if xs.length ≤ 1 then none
  else
    some (((xs.map (fun x => (x - xs.sum / (xs.length : ℚ)) ^ 2)).sum) /
      ((xs.length : ℚ) - 1))

/-- The sample variance with divisor `n - 1` in closed form,
`(n·Σx² − (Σx)²) / (n·(n−1))`; this is the square of the spec's "sample
standard deviation (divisor `n-1`)". -/
def sampleVarAlt (xs : List ℚ) : ℚ :=
  ((xs.length : ℚ) * (xs.map (fun x => x ^ 2)).sum - xs.sum ^ 2) /
    ((xs.length : ℚ) * ((xs.length : ℚ) - 1))

/-- The maximum single input value (0 for an empty list; equal to the true
maximum whenever the list has positive entries). -/
def maxInput (qs : List Int) : Int := qs.foldr max 0

/-- The spec's choice of slot: "the first occurrence of the minimum when
scanning groups in index order" — the first index whose sum is ≤ every
group sum. -/
def specMinIdx (sums : List Int) : Nat :=
  sums.findIdx (fun x => sums.all (fun y => decide (x ≤ y)))

/-- One step of the spec's algorithm (§4.1 steps 3-4): append the value to
the group selected by `specMinIdx` and add it to that group's running sum. -/
def specStep (st : List (List Int) × List Int) (n : Int) :
    List (List Int) × List Int :=
  let idx := specMinIdx st.2
  (st.1.set idx (st.1.getD idx [] ++ [n]), st.2.set idx (st.2.getD idx 0 + n))

/-- The spec's allocator (§4.1): sort descending, start from
`num_inverters` empty groups with sum 0, and place each value in turn by
`specStep`. -/
def allocateSpec (qs : List Int) (k : Nat) : List (List Int) × List Int :=
  List.foldl specStep (List.replicate k [], List.replicate k 0) (sortDesc qs)

/-! ### Helper lemmas on lists -/

theorem getD_set_self {α : Type} (l : List α) (i : Nat) (v d : α)
    (h : i < l.length) : (l.set i v).getD i d = v := by
  induction l generalizing i with
  | nil => simp at h
  | cons a t ih =>
    cases i with
    | zero => simp
    | succ j => simpa using ih j (by simpa using h)

theorem getD_set_ne {α : Type} (l : List α) {i j : Nat} (v d : α)
    (h : i ≠ j) : (l.set i v).getD j d = l.getD j d := by
  induction l generalizing i j with
  | nil => simp
  | cons a t ih =>
    cases i with
    | zero =>
      cases j with
      | zero => exact absurd rfl h
      | succ j' => simp
    | succ i' =>
      cases j with
      | zero => simp
      | succ j' => simpa using ih (fun hc => h (by rw [hc]))

theorem sum_set_add (l : List Int) (i : Nat) (n : Int) (h : i < l.length) :
    (l.set i (l.getD i 0 + n)).sum = l.sum + n := by
  induction l generalizing i with
  | nil => simp at h
  | cons a t ih =>
    cases i with
    | zero => simp; ring
    | succ j =>
      have hj : j < t.length := by simpa using h
      simp only [List.getD_cons_succ, List.set_cons_succ, List.sum_cons, ih j hj]
      ring

theorem mem_set_cases {α : Type} {l : List α} {i : Nat} {v x : α}
    (h : x ∈ l.set i v) : x ∈ l ∨ x = v := by
  induction l generalizing i with
  | nil => simp at h
  | cons a t ih =>
    cases i with
    | zero =>
      rcases List.mem_cons.mp h with h1 | h1
      · exact Or.inr h1
      · exact Or.inl (List.mem_cons_of_mem a h1)
    | succ j =>
      rcases List.mem_cons.mp h with h1 | h1
      · exact Or.inl (h1 ▸ List.mem_cons_self a t)
      · rcases ih h1 with h2 | h2
        · exact Or.inl (List.mem_cons_of_mem a h2)
        · exact Or.inr h2

theorem set_ne_nil {α : Type} {l : List α} (h : l ≠ []) (i : Nat) (v : α) :
    l.set i v ≠ [] := by
  cases l with
  | nil => exact absurd rfl h
  | cons a t => cases i <;> simp

theorem getD_map_sum (lines : List (List Int)) (i : Nat) :
    (lines.map List.sum).getD i 0 = (lines.getD i []).sum := by
  induction lines generalizing i with
  | nil => simp
  | cons a t ih => cases i with
    | zero => simp
    | succ j => simpa using ih j

theorem getD_replicate_self {α : Type} (k i : Nat) (c : α) :
    (List.replicate k c).getD i c = c := by
  induction k generalizing i with
  | zero => simp
  | succ k' ih => cases i with
    | zero => simp [List.replicate]
    | succ j => simp [List.replicate, ih j]

/-! ### Lemmas about `pyMin` and `pyIndex` -/

theorem foldl_min_le_init (a : Int) (l : List Int) : List.foldl min a l ≤ a := by
  induction l generalizing a with
  | nil => simp
  | cons b t ih => exact le_trans (ih (min a b)) (min_le_left a b)

theorem foldl_min_le_mem (a : Int) (l : List Int) :
    ∀ x ∈ l, List.foldl min a l ≤ x := by
  induction l generalizing a with
  | nil => simp
  | cons b t ih =>
    intro x hx
    rcases List.mem_cons.mp hx with rfl | hx
    · exact le_trans (foldl_min_le_init (min a x) t) (min_le_right a x)
    · exact ih (min a b) x hx

theorem foldl_min_mem (a : Int) (l : List Int) :
    List.foldl min a l = a ∨ List.foldl min a l ∈ l := by
  induction l generalizing a with
  | nil => exact Or.inl rfl
  | cons b t ih =>
    rcases ih (min a b) with h | h
    · rcases min_choice a b with hab | hab
      · exact Or.inl (by rw [List.foldl_cons, h, hab])
      · exact Or.inr (by rw [List.foldl_cons, h, hab]; exact List.mem_cons_self b t)
    · exact Or.inr (List.mem_cons_of_mem b (by rw [List.foldl_cons]; exact h))

theorem pyMin_isSome {l : List Int} (h : l ≠ []) : ∃ m, pyMin l = some m := by
  cases l with
  | nil => exact absurd rfl h
  | cons a t => exact ⟨List.foldl min a t, rfl⟩

theorem pyMin_mem {l : List Int} {m : Int} (h : pyMin l = some m) : m ∈ l := by
  cases l with
  | nil => simp [pyMin] at h
  | cons a t =>
    have hm : List.foldl min a t = m := by simpa [pyMin] using h
    rcases foldl_min_mem a t with h1 | h1
    · rw [← hm, h1]; exact List.mem_cons_self a t
    · rw [← hm]; exact List.mem_cons_of_mem a h1

theorem pyMin_le {l : List Int} {m : Int} (h : pyMin l = some m) :
    ∀ x ∈ l, m ≤ x := by
  cases l with
  | nil => simp [pyMin] at h
  | cons a t =>
    have hm : List.foldl min a t = m := by simpa [pyMin] using h
    intro x hx
    rcases List.mem_cons.mp hx with h1 | h1
    · rw [← hm, h1]; exact foldl_min_le_init a t
    · rw [← hm]; exact foldl_min_le_mem a t x h1

theorem pyIndex_lt {v : Int} {l : List Int} (h : v ∈ l) :
    pyIndex v l < l.length := by
  induction l with
  | nil => simp at h
  | cons a t ih =>
    by_cases hav : a = v
    · simp [pyIndex, hav]
    · have hvt : v ∈ t := by
        rcases List.mem_cons.mp h with rfl | h1
        · exact absurd rfl hav
        · exact h1
      simpa [pyIndex, hav] using ih hvt

theorem getD_pyIndex {v : Int} {l : List Int} (h : v ∈ l) :
    l.getD (pyIndex v l) 0 = v := by
  induction l with
  | nil => simp at h
  | cons a t ih =>
    by_cases hav : a = v
    · simp [pyIndex, hav]
    · have hvt : v ∈ t := by
        rcases List.mem_cons.mp h with rfl | h1
        · exact absurd rfl hav
        · exact h1
      simpa [pyIndex, hav] using ih hvt

/-! ### The code's slot choice coincides with the spec's tie-break rule -/

theorem pyIndex_eq_findIdx (v : Int) (l : List Int) :
    pyIndex v l = l.findIdx (fun x => decide (x = v)) := by
  induction l with
  | nil => rfl
  | cons a t ih =>
    by_cases hav : a = v
    · simp [pyIndex, hav, List.findIdx_cons]
    · simp [pyIndex, hav, List.findIdx_cons, ih]

theorem findIdx_congr {p q : Int → Bool} {l : List Int}
    (h : ∀ x ∈ l, p x = q x) : l.findIdx p = l.findIdx q := by
  induction l with
  | nil => rfl
  | cons a t ih =>
    rw [List.findIdx_cons, List.findIdx_cons, h a (List.mem_cons_self a t),
      ih (fun x hx => h x (List.mem_cons_of_mem a hx))]

theorem pyIndex_min_eq_specMinIdx {sums : List Int} {m : Int}
    (h : pyMin sums = some m) : pyIndex m sums = specMinIdx sums := by
  have hmem := pyMin_mem h
  have hle := pyMin_le h
  rw [pyIndex_eq_findIdx, specMinIdx]
  apply findIdx_congr
  intro x hx
  by_cases hxm : x = m
  · have h1 : decide (x = m) = true := by simp [hxm]
    have h2 : (sums.all fun y => decide (x ≤ y)) = true := by
      simp only [List.all_eq_true, decide_eq_true_eq]
      intro y hy
      rw [hxm]; exact hle y hy
    rw [h1, h2]
  · have h1 : decide (x = m) = false := by simpa using hxm
    have h2 : (sums.all fun y => decide (x ≤ y)) = false := by
      apply Bool.eq_false_iff.mpr
      intro hc
      have hall : ∀ y ∈ sums, x ≤ y := by simpa using hc
      exact hxm (le_antisymm (hall m hmem) (hle x hx))
    rw [h1, h2]

/-! ### `maxInput` lemmas -/

theorem le_maxInput {qs : List Int} {x : Int} (h : x ∈ qs) : x ≤ maxInput qs := by
  induction qs with
  | nil => simp at h
  | cons a t ih =>
    rcases List.mem_cons.mp h with h1 | h1
    · rw [h1, maxInput, List.foldr_cons]; exact le_max_left _ _
    · calc x ≤ maxInput t := ih h1
        _ ≤ maxInput (a :: t) := by rw [maxInput, maxInput, List.foldr_cons]; exact le_max_right _ _

theorem maxInput_nonneg (qs : List Int) : 0 ≤ maxInput qs := by
  induction qs with
  | nil => simp [maxInput]
  | cons a t ih =>
    calc (0 : Int) ≤ maxInput t := ih
      _ ≤ maxInput (a :: t) := by rw [maxInput, maxInput, List.foldr_cons]; exact le_max_right _ _

/-! ### Invariants of the greedy loop -/

/-- The loop never fails for a nonempty `sums` list, preserves both lengths,
and adds exactly the processed quantities to the total of `sums`. -/
theorem greedyLoop_total (qs : List Int) :
    ∀ lines sums, sums ≠ [] →
    ∃ r, greedyLoop qs lines sums = some r ∧
      r.1.length = lines.length ∧ r.2.length = sums.length ∧
      r.2.sum = sums.sum + qs.sum := by
  induction qs with
  | nil => exact fun lines sums _ => ⟨(lines, sums), rfl, rfl, rfl, by simp⟩
  | cons n rest ih =>
    intro lines sums h
    obtain ⟨m, hm⟩ := pyMin_isSome h
    have hmem := pyMin_mem hm
    have hidx : pyIndex m sums < sums.length := pyIndex_lt hmem
    obtain ⟨r, hrun, hl, hs, hsum⟩ :=
      ih (lines.set (pyIndex m sums) (lines.getD (pyIndex m sums) [] ++ [n]))
        (sums.set (pyIndex m sums) (sums.getD (pyIndex m sums) 0 + n))
        (set_ne_nil h _ _)
    refine ⟨r, by simp only [greedyLoop, hm]; exact hrun, ?_, ?_, ?_⟩
    · rw [hl, List.length_set]
    · rw [hs, List.length_set]
    · rw [hsum, sum_set_add sums _ n hidx, List.sum_cons]
      ring

/-- The cached sums invariant: if `sums` is the list of line totals, it
stays so through the loop. -/
theorem greedyLoop_map_sum (qs : List Int) :
    ∀ lines r, greedyLoop qs lines (lines.map List.sum) = some r →
    r.2 = r.1.map List.sum := by
  induction qs with
  | nil =>
    intro lines r h
    obtain ⟨rfl⟩ : (lines, lines.map List.sum) = r := by simpa [greedyLoop] using h
    rfl
  | cons n rest ih =>
    intro lines r h
    rcases hmo : pyMin (lines.map List.sum) with _ | m
    · rw [greedyLoop, hmo] at h; exact absurd h (by simp)
    · rw [greedyLoop, hmo] at h
      simp only at h
      set idx := pyIndex m (lines.map List.sum) with hidx
      have hstate : (lines.map List.sum).set idx ((lines.map List.sum).getD idx 0 + n) =
          (lines.set idx (lines.getD idx [] ++ [n])).map List.sum := by
        rw [List.map_set, getD_map_sum, List.sum_append, List.sum_cons, List.sum_nil]
        ring_nf
      rw [hstate] at h
      exact ih _ r h

/-- The balance invariant: if every pair of sums differs by at most `M`,
and every processed quantity lies in `[0, M]`, the property persists. -/
theorem greedyLoop_bound (qs : List Int) (M : Int) (hM : 0 ≤ M) :
    ∀ lines sums, (∀ x ∈ qs, 0 ≤ x ∧ x ≤ M) →
    (∀ a ∈ sums, ∀ b ∈ sums, a ≤ b + M) →
    ∀ r, greedyLoop qs lines sums = some r →
    ∀ a ∈ r.2, ∀ b ∈ r.2, a ≤ b + M := by
  induction qs with
  | nil =>
    intro lines sums _ hinv r h
    obtain ⟨rfl⟩ : (lines, sums) = r := by simpa [greedyLoop] using h
    exact hinv
  | cons n rest ih =>
    intro lines sums hq hinv r h
    have hn0 : 0 ≤ n := (hq n (List.mem_cons_self n rest)).1
    have hnM : n ≤ M := (hq n (List.mem_cons_self n rest)).2
    rcases hmo : pyMin sums with _ | m
    · rw [greedyLoop, hmo] at h; exact absurd h (by simp)
    · rw [greedyLoop, hmo] at h
      simp only at h
      have hmem := pyMin_mem hmo
      have hle := pyMin_le hmo
      have hgetD : sums.getD (pyIndex m sums) 0 = m := getD_pyIndex hmem
      refine ih _ _ (fun x hx => hq x (List.mem_cons_of_mem n hx)) ?_ r h
      intro a ha b hb
      rw [hgetD] at ha hb
      rcases mem_set_cases ha with ha1 | ha1 <;> rcases mem_set_cases hb with hb1 | hb1
      · exact hinv a ha1 b hb1
      · have := hinv a ha1 m hmem
        rw [hb1]; linarith
      · have := hle b hb1
        rw [ha1]; linarith
      · rw [ha1, hb1]; linarith

/-- The code loop computes exactly the spec's fold, step by step. -/
theorem greedyLoop_eq_spec (qs : List Int) :
    ∀ lines sums, sums ≠ [] →
    greedyLoop qs lines sums = some (List.foldl specStep (lines, sums) qs) := by
  induction qs with
  | nil => intro lines sums _; rfl
  | cons n rest ih =>
    intro lines sums h
    obtain ⟨m, hm⟩ := pyMin_isSome h
    have heq : pyIndex m sums = specMinIdx sums := pyIndex_min_eq_specMinIdx hm
    rw [List.foldl_cons]
    have hrun := ih (lines.set (pyIndex m sums) (lines.getD (pyIndex m sums) [] ++ [n]))
      (sums.set (pyIndex m sums) (sums.getD (pyIndex m sums) 0 + n))
      (set_ne_nil h _ _)
    simp only [greedyLoop, hm]
    rw [hrun]
    simp only [specStep, heq]

theorem replicate_ne_nil {α : Type} (c : α) {k : Nat} (hk : 1 ≤ k) :
    List.replicate k c ≠ [] := by
  cases k with
  | zero => omega
  | succ k' => simp [List.replicate]

theorem sum_sq_sub (xs : List ℚ) (c : ℚ) :
    (xs.map (fun x => (x - c) ^ 2)).sum =
      (xs.map (fun x => x ^ 2)).sum - 2 * c * xs.sum + (xs.length : ℚ) * c ^ 2 := by
  induction xs with
  | nil => simp
  | cons a t ih =>
    simp only [List.map_cons, List.sum_cons, List.length_cons, ih]
    push_cast
    ring

instance : IsTotal Int fun a b => b ≤ a := ⟨fun a b => le_total b a⟩

instance : IsTrans Int fun a b => b ≤ a := ⟨fun _ _ _ h1 h2 => le_trans h2 h1⟩

/-! ### The claims -/

/-- C1: for every list of non-negative integer quantities and every
`num_inverters ≥ 1`, the total of all group sums returned by
`distribute_str_qty_greedy` equals the sum of the input quantities. -/
theorem C1_conservation (qs : List Int) (k : Nat) (hk : 1 ≤ k)
    (_hnn : ∀ x ∈ qs, 0 ≤ x) :
    ∃ r, distribute_str_qty_greedy qs k = some r ∧ r.2.sum = qs.sum := by
  obtain ⟨r, hrun, _, _, hsum⟩ := greedyLoop_total (sortDesc qs)
    (List.replicate k []) (List.replicate k 0) (replicate_ne_nil 0 hk)
  refine ⟨r, by rw [distribute_str_qty_greedy]; exact hrun, ?_⟩
  rw [hsum]
  simp only [List.sum_replicate, smul_zero, zero_add]
  exact (List.perm_insertionSort _ qs).sum_eq

/-- C1 witness: at `quantities = [16, 14, 16]`, `num_inverters = 2`. -/
theorem C1_conservation_witness :
    (1 : Nat) ≤ 2 ∧
    ∃ r, distribute_str_qty_greedy [16, 14, 16] 2 = some r ∧
      r.2.sum = ([16, 14, 16] : List Int).sum :=
  ⟨by decide, C1_conservation [16, 14, 16] 2 (by decide) (by decide)⟩

/-- C2: `distribute_str_qty_greedy` implements exactly the spec's greedy
LPT algorithm: its sort is a descending-sorted permutation of the input,
and the allocation equals the spec's fold, which assigns each value in
sorted order to the first group (scanning in index order) whose sum is
minimal, appending it and adding it to the running sum. -/
theorem C2_lpt_refinement (qs : List Int) (k : Nat) (hk : 1 ≤ k) :
    List.Sorted (fun a b => b ≤ a) (sortDesc qs) ∧ (sortDesc qs).Perm qs ∧
    distribute_str_qty_greedy qs k = some (allocateSpec qs k) := by
  refine ⟨List.sorted_insertionSort _ qs, List.perm_insertionSort _ qs, ?_⟩
  rw [distribute_str_qty_greedy, allocateSpec]
  exact greedyLoop_eq_spec (sortDesc qs) _ _ (replicate_ne_nil 0 hk)

/-- C2 witness: at `quantities = [1, 5, 3]`, `num_inverters = 2`. -/
theorem C2_lpt_refinement_witness :
    (1 : Nat) ≤ 2 ∧
    (List.Sorted (fun a b => b ≤ a) (sortDesc [1, 5, 3]) ∧
      (sortDesc [1, 5, 3]).Perm [1, 5, 3] ∧
      distribute_str_qty_greedy [1, 5, 3] 2 = some (allocateSpec [1, 5, 3] 2)) :=
  ⟨by decide, C2_lpt_refinement [1, 5, 3] 2 (by decide)⟩

/-- C3: for every input and every `num_inverters ≥ 1` the function returns
exactly `num_inverters` lines and `num_inverters` sums (in slot order);
a group holding no values has sum 0, and an empty quantities input yields
`num_inverters` empty groups, all sums 0. -/
theorem C3_group_count (qs : List Int) (k : Nat) (hk : 1 ≤ k) :
    ∃ r, distribute_str_qty_greedy qs k = some r ∧
      r.1.length = k ∧ r.2.length = k ∧
      (∀ i, r.1.getD i [] = [] → r.2.getD i 0 = 0) ∧
      (qs = [] → r = (List.replicate k [], List.replicate k 0)) := by
  obtain ⟨r, hrun, hl, hs, _⟩ := greedyLoop_total (sortDesc qs)
    (List.replicate k []) (List.replicate k 0) (replicate_ne_nil 0 hk)
  have hmap : r.2 = r.1.map List.sum := by
    apply greedyLoop_map_sum (sortDesc qs) (List.replicate k [])
    rw [List.map_replicate]
    exact hrun
  refine ⟨r, by rw [distribute_str_qty_greedy]; exact hrun,
    by simpa using hl, by simpa using hs, ?_, ?_⟩
  · intro i hi
    rw [hmap, getD_map_sum, hi]
    rfl
  · rintro rfl
    have hrun' : some ((List.replicate k [] : List (List Int)),
        (List.replicate k 0 : List Int)) = some r := by
      rw [← hrun]; rfl
    exact (Option.some.inj hrun').symm

/-- C3 witness: at `quantities = []`, `num_inverters = 3`. -/
theorem C3_group_count_witness :
    (1 : Nat) ≤ 3 ∧
    ∃ r, distribute_str_qty_greedy [] 3 = some r ∧
      r.1.length = 3 ∧ r.2.length = 3 ∧
      (∀ i, r.1.getD i [] = [] → r.2.getD i 0 = 0) ∧
      (([] : List Int) = [] → r = (List.replicate 3 [], List.replicate 3 0)) :=
  ⟨by decide, C3_group_count [] 3 (by decide)⟩

/-- C4: for a non-empty list of positive quantities and `num_inverters ≥ 1`,
any two final group sums differ by at most the maximum single input value
(so in particular max sum − min sum is bounded by it). -/
theorem C4_balance (qs : List Int) (k : Nat) (hk : 1 ≤ k) (_hne : qs ≠ [])
    (hpos : ∀ x ∈ qs, 0 < x) :
    ∃ r, distribute_str_qty_greedy qs k = some r ∧
      ∀ a ∈ r.2, ∀ b ∈ r.2, a - b ≤ maxInput qs := by
  obtain ⟨r, hrun, _, _, _⟩ := greedyLoop_total (sortDesc qs)
    (List.replicate k []) (List.replicate k 0) (replicate_ne_nil 0 hk)
  refine ⟨r, by rw [distribute_str_qty_greedy]; exact hrun, ?_⟩
  have hq : ∀ x ∈ sortDesc qs, 0 ≤ x ∧ x ≤ maxInput qs := by
    intro x hx
    have hx' : x ∈ qs := (List.perm_insertionSort _ qs).mem_iff.mp hx
    exact ⟨le_of_lt (hpos x hx'), le_maxInput hx'⟩
  have hinit : ∀ a ∈ (List.replicate k (0 : Int)), ∀ b ∈ (List.replicate k (0 : Int)),
      a ≤ b + maxInput qs := by
    intro a ha b hb
    rw [List.eq_of_mem_replicate ha, List.eq_of_mem_replicate hb]
    simpa using maxInput_nonneg qs
  have hbound := greedyLoop_bound (sortDesc qs) (maxInput qs) (maxInput_nonneg qs)
    (List.replicate k []) (List.replicate k 0) hq hinit r hrun
  intro a ha b hb
  have := hbound a ha b hb
  linarith

/-- C4 witness: at `quantities = [5, 3, 2]`, `num_inverters = 2`
(the group sums come out as 5 and 5, and the max input is 5). -/
theorem C4_balance_witness :
    (1 : Nat) ≤ 2 ∧ ([5, 3, 2] : List Int) ≠ [] ∧
    (∀ x ∈ ([5, 3, 2] : List Int), 0 < x) ∧
    ∃ r, distribute_str_qty_greedy [5, 3, 2] 2 = some r ∧
      ∀ a ∈ r.2, ∀ b ∈ r.2, a - b ≤ maxInput [5, 3, 2] :=
  ⟨by decide, by decide, by decide,
    C4_balance [5, 3, 2] 2 (by decide) (by decide) (by decide)⟩

/-- C5: the metrics loop computes
`dc_power_kw = total_strings * modules_per_string * module_power_w / 1000`
and, for a positive AC rating, `ilr = dc_power_kw / inverter_ac_kva`;
in particular 64 strings of 27 modules of 625 W give 1080.0 kW and, at
1100 kVA, a loading ratio of 1080/1100. -/
theorem C5_metrics (t m : Int) (w p : ℚ) (hp : 0 < p) :
    dc_power_kw t m w = (t : ℚ) * (m : ℚ) * w / 1000 ∧
    ilr (dc_power_kw t m w) p = (t : ℚ) * (m : ℚ) * w / 1000 / p ∧
    dc_power_kw 64 27 625 = 1080 ∧
    ilr (dc_power_kw 64 27 625) 1100 = 1080 / 1100 := by
  have h1 : dc_power_kw t m w = (t : ℚ) * (m : ℚ) * w / 1000 := by
    simp only [dc_power_kw]
    ring
  refine ⟨h1, ?_, by norm_num [dc_power_kw], by norm_num [ilr, dc_power_kw]⟩
  rw [ilr, if_pos hp, h1]

/-- C5 witness: the default sidebar parameters. -/
theorem C5_metrics_witness :
    (0 : ℚ) < 1100 ∧
    (dc_power_kw 64 27 625 = (64 : ℚ) * (27 : ℚ) * 625 / 1000 ∧
      ilr (dc_power_kw 64 27 625) 1100 = (64 : ℚ) * (27 : ℚ) * 625 / 1000 / 1100 ∧
      dc_power_kw 64 27 625 = 1080 ∧
      ilr (dc_power_kw 64 27 625) 1100 = 1080 / 1100) :=
  ⟨by norm_num, C5_metrics 64 27 625 1100 (by norm_num)⟩

/-- C6: with a zero AC rating every loading ratio is the 0 sentinel; the
embedded computation is a total function, so no division error occurs. -/
theorem C6_zero_ac_sentinel (d : ℚ) : ilr d 0 = 0 := by
  simp [ilr]

/-- C7 counterexample: with a single slot (the default parameters, 284
strings on one inverter) pandas `std` is NaN (`none`), not `0.0` as the
claim states. -/
theorem C7_std_counterexample :
    ilr_std_sq [ilr (dc_power_kw 284 27 625) 1100] = none ∧
    ilr_std_sq [ilr (dc_power_kw 284 27 625) 1100] ≠ some 0 := by
  constructor <;> simp [ilr_std_sq]

/-- C7 amended: the aggregate `std` is the sample standard deviation with
divisor `n − 1` when `n ≥ 2` (its square equals the closed-form sample
variance), but for `n ≤ 1` — in particular `num_inverters = 1` — it is
NaN, not `0.0`. -/
theorem C7_std_amended (xs : List ℚ) :
    (xs.length ≤ 1 → ilr_std_sq xs = none) ∧
    (2 ≤ xs.length → ilr_std_sq xs = some (sampleVarAlt xs)) := by
  constructor
  · intro h
    rw [ilr_std_sq, if_pos h]
  · intro h2
    have hlen : ¬ xs.length ≤ 1 := by omega
    rw [ilr_std_sq, if_neg hlen, sampleVarAlt, sum_sq_sub]
    have hn0 : (xs.length : ℚ) ≠ 0 := Nat.cast_ne_zero.mpr (by omega)
    have hn1 : (xs.length : ℚ) - 1 ≠ 0 := by
      have h2' : (2 : ℚ) ≤ (xs.length : ℚ) := by exact_mod_cast h2
      intro hc
      rw [sub_eq_zero] at hc
      rw [hc] at h2'
      norm_num at h2'
    congr 1
    field_simp
    ring

/-- C7 witness: a one-element series gives `none`; the two-element series
`[1, 3]` gives the sample variance in closed form. -/
theorem C7_std_amended_witness :
    ilr_std_sq [(5 : ℚ)] = none ∧
    ilr_std_sq [(1 : ℚ), 3] = some (sampleVarAlt [(1 : ℚ), 3]) :=
  ⟨(C7_std_amended [(5 : ℚ)]).1 (by decide),
    (C7_std_amended [(1 : ℚ), 3]).2 (by decide)⟩

/-- C8 counterexample: an input containing a negative value is not
rejected — `distribute_str_qty_greedy` allocates it like any other value
(there is no validation anywhere in the function). -/
theorem C8_negative_counterexample :
    distribute_str_qty_greedy [-5, 3] 2 = some ([[3], [-5]], [3, -5]) ∧
    (distribute_str_qty_greedy [-5, 3] 2).isSome = true := by
  constructor <;> decide

/-- C8 amended: the allocator performs no sign validation: for every
integer input (negative values included) and every `num_inverters ≥ 1` it
returns an ordinary allocation; no `InvalidInput` rejection exists in the
code. -/
theorem C8_no_negative_rejection (qs : List Int) (k : Nat) (hk : 1 ≤ k) :
    (distribute_str_qty_greedy qs k).isSome = true := by
  obtain ⟨r, hrun, _, _, _⟩ := greedyLoop_total (sortDesc qs)
    (List.replicate k []) (List.replicate k 0) (replicate_ne_nil 0 hk)
  rw [distribute_str_qty_greedy, hrun]
  rfl

/-- C8 witness: a negative input on 3 inverters still yields a result. -/
theorem C8_no_negative_rejection_witness :
    (1 : Nat) ≤ 3 ∧ (distribute_str_qty_greedy [-7, 2] 3).isSome = true :=
  ⟨by decide, C8_no_negative_rejection [-7, 2] 3 (by decide)⟩

/-- C9 counterexample: with `num_inverters = 0` and an empty quantities
list the function raises nothing at all — it returns the empty allocation
— so no `InvalidConfiguration` error is raised "for every quantities
input" (no such error kind exists anywhere in the code). -/
theorem C9_config_counterexample :
    distribute_str_qty_greedy [] 0 = some ([], []) := by
  decide

/-- C9 amended: with `num_inverters = 0` the code raises only the
accidental `ValueError` from `min(sums)` on the empty sums list (modelled
by `none`), and only when the quantities list is nonempty; the empty input
returns successfully, and the UI widget (`min_value=1`) is what actually
prevents `num_inverters < 1`. -/
theorem C9_zero_inverters (qs : List Int) (hne : qs ≠ []) :
    distribute_str_qty_greedy qs 0 = none := by
  have hs : sortDesc qs ≠ [] := by
    intro hc
    have hperm : qs.Perm [] := by
      rw [← hc]
      exact (List.perm_insertionSort _ qs).symm
    exact hne hperm.eq_nil
  rw [distribute_str_qty_greedy]
  cases hsort : sortDesc qs with
  | nil => exact absurd hsort hs
  | cons n rest => simp [greedyLoop, pyMin, List.replicate]

/-- C9 witness: one value, zero inverters. -/
theorem C9_zero_inverters_witness :
    ([-1] : List Int) ≠ [] ∧ distribute_str_qty_greedy [-1] 0 = none :=
  ⟨by decide, C9_zero_inverters [-1] (by decide)⟩

/-- C10: the two returned lists are consistent: the cached sums list is
exactly the list of line totals, slot by slot. -/
theorem C10_cached_sums (qs : List Int) (k : Nat) (hk : 1 ≤ k) :
    ∃ r, distribute_str_qty_greedy qs k = some r ∧ r.2 = r.1.map List.sum := by
  obtain ⟨r, hrun, _, _, _⟩ := greedyLoop_total (sortDesc qs)
    (List.replicate k []) (List.replicate k 0) (replicate_ne_nil 0 hk)
  refine ⟨r, by rw [distribute_str_qty_greedy]; exact hrun, ?_⟩
  apply greedyLoop_map_sum (sortDesc qs) (List.replicate k [])
  rw [List.map_replicate]
  exact hrun

/-- C10 witness: at `quantities = [4, 1, 3]`, `num_inverters = 2`. -/
theorem C10_cached_sums_witness :
    (1 : Nat) ≤ 2 ∧
    ∃ r, distribute_str_qty_greedy [4, 1, 3] 2 = some r ∧
      r.2 = r.1.map List.sum :=
  ⟨by decide, C10_cached_sums [4, 1, 3] 2 (by decide)⟩
